import Mathlib

/-!
Verification of the clustering post-processing pipeline in `cluster.py`
(speaker-diarization RTTM generation from similarity matrices).

Times and matrix entries are modelled as rationals; labels as naturals.
Lists model Python lists; the in-place mutation of `entries[-1]` in
`assign_segments` is modelled by rebuilding the last list element.
-/

/-- A merged interval: the Python dict with keys s (start), e (end) and id
(label) built by `assign_segments`. -/
structure Entry where
  s : ℚ
  e : ℚ
  id : ℕ
deriving DecidableEq, Repr, Inhabited

/-- One iteration of the loop body of `assign_segments` (cluster.py lines
77-95): given the accumulated `entries` list and the current
`(plabel, ev)` pair, produce the updated entries list.  The Python code
mutates `entries[-1]` in place; here the last element is rebuilt. -/
def assignStep (entries : List Entry) (plabel : ℕ) (ev : ℚ × ℚ) : List Entry :=
  let start := ev.1
  let e := ev.2
  match entries.getLast? with
  | none => [⟨start, e, plabel⟩]
  | some last =>
    if last.e < start then
      entries ++ [⟨start, e, plabel⟩]
    else if last.id = plabel then
      entries.dropLast ++ [⟨last.s, e, last.id⟩]
    else
      let fuzzy_start := (last.e + start) / 2
      entries.dropLast ++ [⟨last.s, fuzzy_start, last.id⟩, ⟨fuzzy_start, e, plabel⟩]

/-- The segment merger `assign_segments` (cluster.py lines 75-96):
zips predicted labels with events `(start, end)` and folds the loop body. -/
def assign_segments (pred_labels : List ℕ) (events : List (ℚ × ℚ)) : List Entry :=
  (pred_labels.zip events).foldl (fun entries pev => assignStep entries pev.1 pev.2) []

theorem assignStep_nil (plabel : ℕ) (ev : ℚ × ℚ) :
    assignStep [] plabel ev = [⟨ev.1, ev.2, plabel⟩] := rfl

theorem assignStep_gap (init : List Entry) (last : Entry) (plabel : ℕ) (st en : ℚ)
    (hgap : last.e < st) :
    assignStep (init ++ [last]) plabel (st, en) = (init ++ [last]) ++ [⟨st, en, plabel⟩] := by
  unfold assignStep
  simp only [List.getLast?_concat]
  simp [hgap]

theorem assignStep_merge (init : List Entry) (last : Entry) (plabel : ℕ) (st en : ℚ)
    (hnogap : ¬ last.e < st) (hid : last.id = plabel) :
    assignStep (init ++ [last]) plabel (st, en) = init ++ [⟨last.s, en, last.id⟩] := by
  unfold assignStep
  simp only [List.getLast?_concat]
  simp [hnogap, hid, List.dropLast_concat]

theorem assignStep_fuzzy (init : List Entry) (last : Entry) (plabel : ℕ) (st en : ℚ)
    (hnogap : ¬ last.e < st) (hid : last.id ≠ plabel) :
    assignStep (init ++ [last]) plabel (st, en) =
      init ++ [⟨last.s, (last.e + st) / 2, last.id⟩, ⟨(last.e + st) / 2, en, plabel⟩] := by
  unfold assignStep
  simp only [List.getLast?_concat]
  simp [hnogap, hid, List.dropLast_concat]

/-- C2 counterexample: the concrete example of the claim is wrong.  For segments
`[(0,1),(1,2),(2,3)]` with labels `[0,0,1]` the merger first extends the
open interval to end 2, so the fuzzy midpoint with the third segment is
`(2+2)/2 = 2`, and the output is `[{s:0,e:2,id:0}, {s:2,e:3,id:1}]`, not the
claimed `[{s:0,e:3/2,id:0}, {s:3/2,e:3,id:1}]`. -/
theorem c2_fuzzy_midpoint_counterexample :
    assign_segments [0, 0, 1] [(0, 1), (1, 2), (2, 3)] = [⟨0, 2, 0⟩, ⟨2, 3, 1⟩] ∧
    assign_segments [0, 0, 1] [(0, 1), (1, 2), (2, 3)] ≠
      [⟨0, 3 / 2, 0⟩, ⟨3 / 2, 3, 1⟩] := by
  refine ⟨by simp [assign_segments, assignStep], ?_⟩
  intro hbad
  have h1 : assign_segments [0, 0, 1] [(0, 1), (1, 2), (2, 3)] =
      [⟨0, 2, 0⟩, ⟨2, 3, 1⟩] := by simp [assign_segments, assignStep]
  rw [h1] at hbad
  have h2 := congrArg (fun l => (l.headD default).e) hbad
  norm_num at h2

/-- C2 amended: contiguous-but-different-label segments are resolved at the
arithmetic midpoint of the current end of the open interval and the start of
the new segment: the open interval closes at the midpoint and a new interval
`[midpoint, new end]` opens; for segments `[(0,1),(1,2),(2,3)]` with labels
`[0,0,1]` the open interval has already been extended to end 2 when the
boundary is resolved, so the output is `[{s:0,e:2,id:0}, {s:2,e:3,id:1}]`. -/
theorem c2_fuzzy_midpoint :
    (∀ (init : List Entry) (last : Entry) (plabel : ℕ) (st en : ℚ),
        ¬ last.e < st → last.id ≠ plabel →
        assignStep (init ++ [last]) plabel (st, en) =
          init ++ [⟨last.s, (last.e + st) / 2, last.id⟩, ⟨(last.e + st) / 2, en, plabel⟩]) ∧
    assign_segments [0, 0, 1] [(0, 1), (1, 2), (2, 3)] =
      [⟨0, 2, 0⟩, ⟨2, 3, 1⟩] := by
  constructor
  · exact assignStep_fuzzy
  · simp [assign_segments, assignStep]

/-- Witness for C2: the general midpoint rule applied at a concrete input. -/
theorem c2_fuzzy_midpoint_witness :
    assignStep ([] ++ [⟨0, 2, 0⟩]) 1 (2, 3) =
      [] ++ [⟨0, 2, 0⟩, ⟨2, 3, 1⟩] := by
  have h := c2_fuzzy_midpoint.1 [] ⟨0, 2, 0⟩ 1 2 3 (by norm_num) (by decide)
  simpa using h

/-- C3: a strict time gap (the end of the open interval strictly before the
start of the new segment) closes the open interval unchanged and opens a
fresh interval with the data of the new segment, for any label; concretely,
segments
`[(0,1),(2,3)]` with labels `[0,0]` stay two separate intervals. -/
theorem c3_gap_split :
    (∀ (init : List Entry) (last : Entry) (plabel : ℕ) (st en : ℚ),
        last.e < st →
        assignStep (init ++ [last]) plabel (st, en) =
          (init ++ [last]) ++ [⟨st, en, plabel⟩]) ∧
    assign_segments [0, 0] [(0, 1), (2, 3)] = [⟨0, 1, 0⟩, ⟨2, 3, 0⟩] := by
  constructor
  · exact assignStep_gap
  · norm_num [assign_segments, assignStep]

/-- Witness for C3: the general gap rule applied at a concrete input. -/
theorem c3_gap_split_witness :
    assignStep ([] ++ [⟨0, 1, 0⟩]) 0 (2, 3) =
      ([] ++ [⟨0, 1, 0⟩]) ++ [⟨2, 3, 0⟩] :=
  c3_gap_split.1 [] ⟨0, 1, 0⟩ 0 2 3 (by norm_num)

/-- The adjacency relation the merger actually preserves between consecutive
output intervals: time order, and distinct labels whenever the boundary is
shared exactly (no gap). -/
def entryRel (a b : Entry) : Prop := a.e ≤ b.s ∧ (a.e = b.s → a.id ≠ b.id)

/-- Non-decreasing segment times across the ordered input sequence. -/
def eventsMono (events : List (ℚ × ℚ)) : Prop :=
  List.Chain' (fun a b => a.1 ≤ b.1 ∧ a.2 ≤ b.2) events

theorem assignStep_chain (entries : List Entry) (plabel : ℕ) (ev : ℚ × ℚ)
    (h : List.Chain' entryRel entries) :
    List.Chain' entryRel (assignStep entries plabel ev) := by
  obtain ⟨st, en⟩ := ev
  induction entries using List.reverseRecOn with
  | nil => exact List.chain'_singleton _
  | append_singleton init last _ =>
    obtain ⟨hinit, -, hrel⟩ := List.chain'_append.mp h
    by_cases hgap : last.e < st
    · rw [assignStep_gap init last plabel st en hgap]
      refine List.chain'_append.mpr ⟨h, List.chain'_singleton _, ?_⟩
      intro x hx y hy
      rw [List.getLast?_concat, Option.mem_some_iff] at hx
      simp only [List.head?_cons, Option.mem_some_iff] at hy
      subst hx; subst hy
      exact ⟨le_of_lt hgap, fun heq => absurd heq (ne_of_lt hgap)⟩
    · by_cases hid : last.id = plabel
      · rw [assignStep_merge init last plabel st en hgap hid]
        refine List.chain'_append.mpr ⟨hinit, List.chain'_singleton _, ?_⟩
        intro x hx y hy
        simp only [List.head?_cons, Option.mem_some_iff] at hy
        subst hy
        exact hrel x hx last (by simp)
      · rw [assignStep_fuzzy init last plabel st en hgap hid]
        refine List.chain'_append.mpr ⟨hinit, ?_, ?_⟩
        · exact List.chain'_cons.mpr ⟨⟨le_refl _, fun _ => hid⟩, List.chain'_singleton _⟩
        · intro x hx y hy
          simp only [List.head?_cons, Option.mem_some_iff] at hy
          subst hy
          exact hrel x hx last (by simp)

theorem assign_segments_chain_aux (pairs : List (ℕ × (ℚ × ℚ))) (entries : List Entry)
    (h : List.Chain' entryRel entries) :
    List.Chain' entryRel
      (pairs.foldl (fun es pev => assignStep es pev.1 pev.2) entries) := by
  induction pairs generalizing entries with
  | nil => exact h
  | cons p ps ih => exact ih _ (assignStep_chain _ _ _ h)

/-- C4 counterexample: with a time gap the merger deliberately keeps two
separate intervals carrying the same label, so for the non-decreasing
equal-length input `labels = [0,0]`, `events = [(0,1),(2,3)]` the claimed
invariant that consecutive output intervals always have different ids fails. -/
theorem c4_counterexample :
    ([0, 0] : List ℕ).length = [((0 : ℚ), (1 : ℚ)), (2, 3)].length ∧
    eventsMono [((0 : ℚ), (1 : ℚ)), (2, 3)] ∧
    ¬ List.Chain' (fun a b => a.id ≠ b.id ∧ a.e ≤ b.s)
        (assign_segments [0, 0] [(0, 1), (2, 3)]) := by
  refine ⟨rfl, by norm_num [eventsMono], ?_⟩
  have h1 : assign_segments [0, 0] [(0, 1), (2, 3)] = [⟨0, 1, 0⟩, ⟨2, 3, 0⟩] := by
    norm_num [assign_segments, assignStep]
  rw [h1]
  intro hch
  exact (List.chain'_cons.mp hch).1.1 rfl

/-- C4 amended: for every equal-length input with non-decreasing segment
times, consecutive output intervals of the merger are time-ordered with
`interval[i].e ≤ interval[i+1].s`, and they have different ids whenever they
share the boundary exactly (`interval[i].e = interval[i+1].s`); across a
genuine time gap equal ids are allowed (the gap-split policy of C3). -/
theorem c4_intervals_ordered (labels : List ℕ) (events : List (ℚ × ℚ))
    (hlen : labels.length = events.length) (hmono : eventsMono events) :
    List.Chain' entryRel (assign_segments labels events) :=
  assign_segments_chain_aux _ _ List.chain'_nil

/-- Witness for C4: the amended invariant at a concrete input. -/
theorem c4_intervals_ordered_witness :
    List.Chain' entryRel (assign_segments [0, 1] [(0, 1), (1, 2)]) :=
  c4_intervals_ordered [0, 1] [(0, 1), (1, 2)] rfl
    (by norm_num [eventsMono])

theorem assignStep_ne_nil (entries : List Entry) (plabel : ℕ) (ev : ℚ × ℚ) :
    assignStep entries plabel ev ≠ [] := by
  obtain ⟨st, en⟩ := ev
  induction entries using List.reverseRecOn with
  | nil => simp [assignStep]
  | append_singleton init last _ =>
    by_cases hgap : last.e < st
    · rw [assignStep_gap init last plabel st en hgap]; simp
    · by_cases hid : last.id = plabel
      · rw [assignStep_merge init last plabel st en hgap hid]; simp
      · rw [assignStep_fuzzy init last plabel st en hgap hid]; simp

theorem headI_append_left (l1 l2 : List Entry) (h : l1 ≠ []) :
    (l1 ++ l2).headI = l1.headI := by
  cases l1 with
  | nil => exact absurd rfl h
  | cons a t => rfl

theorem assignStep_headI_s (entries : List Entry) (plabel : ℕ) (ev : ℚ × ℚ)
    (h : entries ≠ []) :
    (assignStep entries plabel ev).headI.s = entries.headI.s := by
  obtain ⟨st, en⟩ := ev
  induction entries using List.reverseRecOn with
  | nil => exact absurd rfl h
  | append_singleton init last _ =>
    by_cases hgap : last.e < st
    · rw [assignStep_gap init last plabel st en hgap,
        headI_append_left (init ++ [last]) _ (by simp)]
    · cases init with
      | nil =>
        by_cases hid : last.id = plabel
        · rw [assignStep_merge [] last plabel st en hgap hid]; rfl
        · rw [assignStep_fuzzy [] last plabel st en hgap hid]; rfl
      | cons a t =>
        by_cases hid : last.id = plabel
        · rw [assignStep_merge (a :: t) last plabel st en hgap hid]; rfl
        · rw [assignStep_fuzzy (a :: t) last plabel st en hgap hid]; rfl

theorem assignStep_getLast_e (entries : List Entry) (plabel : ℕ) (st en : ℚ)
    (d : Entry) :
    ((assignStep entries plabel (st, en)).getLastD d).e = en := by
  induction entries using List.reverseRecOn with
  | nil => rfl
  | append_singleton init last _ =>
    by_cases hgap : last.e < st
    · rw [assignStep_gap init last plabel st en hgap, List.getLastD_concat]
    · by_cases hid : last.id = plabel
      · rw [assignStep_merge init last plabel st en hgap hid, List.getLastD_concat]
      · rw [assignStep_fuzzy init last plabel st en hgap hid,
          show init ++ [⟨last.s, (last.e + st) / 2, last.id⟩,
              ⟨(last.e + st) / 2, en, plabel⟩] =
            (init ++ [⟨last.s, (last.e + st) / 2, last.id⟩]) ++
              [⟨(last.e + st) / 2, en, plabel⟩] by simp,
          List.getLastD_concat]

theorem fold_assign_ne_nil_headI (pairs : List (ℕ × (ℚ × ℚ))) (entries : List Entry)
    (h : entries ≠ []) :
    (pairs.foldl (fun es pev => assignStep es pev.1 pev.2) entries) ≠ [] ∧
    (pairs.foldl (fun es pev => assignStep es pev.1 pev.2) entries).headI.s =
      entries.headI.s := by
  induction pairs generalizing entries with
  | nil => exact ⟨h, rfl⟩
  | cons p ps ih =>
    obtain ⟨h1, h2⟩ := ih (assignStep entries p.1 p.2) (assignStep_ne_nil _ _ _)
    exact ⟨h1, h2.trans (assignStep_headI_s _ _ _ h)⟩

theorem fold_assign_getLast_e (pairs : List (ℕ × (ℚ × ℚ))) (entries : List Entry)
    (h : pairs ≠ []) (d : Entry) (pd : ℕ × (ℚ × ℚ)) :
    ((pairs.foldl (fun es pev => assignStep es pev.1 pev.2) entries).getLastD d).e =
      (pairs.getLastD pd).2.2 := by
  induction pairs generalizing entries pd with
  | nil => exact absurd rfl h
  | cons p ps ih =>
    cases ps with
    | nil =>
      simp only [List.foldl_cons, List.foldl_nil, List.getLastD_cons, List.getLastD_nil]
      exact assignStep_getLast_e entries p.1 p.2.1 p.2.2 d
    | cons q qs =>
      simp only [List.foldl_cons]
      rw [show ((p :: q :: qs : List (ℕ × (ℚ × ℚ))).getLastD pd) =
        ((q :: qs : List (ℕ × (ℚ × ℚ))).getLastD p) by
          rw [List.getLastD_cons, List.getLastD_cons]]
      exact ih _ (by simp) _

theorem zip_getLastD_snd (labels : List ℕ) (events : List (ℚ × ℚ))
    (hlen : labels.length = events.length) (hne : labels ≠ [])
    (pd : ℕ × (ℚ × ℚ)) (d : ℚ × ℚ) :
    ((labels.zip events).getLastD pd).2 = events.getLastD d := by
  induction labels generalizing events pd d with
  | nil => exact absurd rfl hne
  | cons a t ih =>
    cases events with
    | nil => simp at hlen
    | cons b u =>
      cases t with
      | nil =>
        cases u with
        | nil => rfl
        | cons b2 u2 => simp at hlen
      | cons a2 t2 =>
        cases u with
        | nil => simp at hlen
        | cons b2 u2 =>
          rw [List.zip_cons_cons, List.getLastD_cons, List.getLastD_cons]
          exact ih (b2 :: u2) (by simpa using hlen) (by simp) (a, b) b

/-- C10: for every non-empty equal-length labels/segments input the first
interval of the merger output starts exactly at the start time of the first
segment and the last interval ends exactly at the end time of the last
segment; no merge, gap-split or
fuzzy-midpoint step moves the two outer endpoints. -/
theorem c10_outer_endpoints (labels : List ℕ) (events : List (ℚ × ℚ))
    (hne : labels ≠ []) (hlen : labels.length = events.length) :
    assign_segments labels events ≠ [] ∧
    (assign_segments labels events).headI.s = events.headI.1 ∧
    ((assign_segments labels events).getLastD default).e =
      (events.getLastD default).2 := by
  cases labels with
  | nil => exact absurd rfl hne
  | cons a t =>
    cases events with
    | nil => simp at hlen
    | cons b u =>
      have hfold : assign_segments (a :: t) (b :: u) =
          (t.zip u).foldl (fun es pev => assignStep es pev.1 pev.2) [⟨b.1, b.2, a⟩] := by
        unfold assign_segments
        rw [List.zip_cons_cons, List.foldl_cons]
        rfl
      refine ⟨?_, ?_, ?_⟩
      · rw [hfold]
        exact (fold_assign_ne_nil_headI _ _ (by simp)).1
      · rw [hfold]
        rw [(fold_assign_ne_nil_headI (t.zip u) [⟨b.1, b.2, a⟩] (by simp)).2]
        rfl
      · have h1 := fold_assign_getLast_e ((a :: t).zip (b :: u)) [] (by simp) default (a, b)
        have h2 := zip_getLastD_snd (a :: t) (b :: u) hlen (by simp) (a, b) default
        unfold assign_segments
        rw [h1, h2]

/-- Witness for C10: outer endpoints at a concrete input. -/
theorem c10_outer_endpoints_witness :
    assign_segments [5] [(1, 2)] ≠ [] ∧
    (assign_segments [5] [(1, 2)]).headI.s = ((1 : ℚ), (2 : ℚ)).1 ∧
    ((assign_segments [5] [(1, 2)]).getLastD default).e =
      (([((1 : ℚ), (2 : ℚ))].getLastD default)).2 :=
  c10_outer_endpoints [5] [(1, 2)] (by simp) rfl

section Enhancer

variable {n : ℕ} [NeZero n]

/-- Symmeterization `sym` (cluster.py lines 39-43):
`np.maximum(matrix, matrix.T)` elementwise. -/
def sym (matrix : Matrix (Fin n) (Fin n) ℚ) : Matrix (Fin n) (Fin n) ℚ :=
  fun i j => max (matrix i j) (matrix.transpose i j)

/-- Diffusion (cluster.py lines 45-49): `np.dot(matrix, matrix.T)`. -/
def diffusion (matrix : Matrix (Fin n) (Fin n) ℚ) : Matrix (Fin n) (Fin n) ℚ :=
  matrix * matrix.transpose

/-- Column maximum: `np.amax(matrix, axis=0)` evaluated at column `j`,
the maximum of `matrix[_][j]` over the first axis. -/
def colMax (matrix : Matrix (Fin n) (Fin n) ℚ) (j : Fin n) : ℚ :=
  Finset.univ.sup' Finset.univ_nonempty (fun i => matrix i j)

/-- The normalization `row_max_norm` (cluster.py lines 51-56):
`matrix / np.amax(matrix, axis=0)`, which by numpy broadcasting divides
entry `(i, j)` by the maximum over axis 0 of column `j`. -/
def row_max_norm (matrix : Matrix (Fin n) (Fin n) ℚ) : Matrix (Fin n) (Fin n) ℚ :=
  fun i j => matrix i j / colMax matrix j

/-- The similarity enhancer `sim_enhancement` (cluster.py lines 58-59). -/
def sim_enhancement (matrix : Matrix (Fin n) (Fin n) ℚ) : Matrix (Fin n) (Fin n) ℚ :=
  row_max_norm (diffusion (sym matrix))

/-- The enhancer pipeline exactly as the spec words it: symmetrize by
elementwise max, diffuse by multiplying with the transpose, then divide each
entry by the column-wise maximum over axis 0. -/
def enhanceSpec (S : Matrix (Fin n) (Fin n) ℚ) : Matrix (Fin n) (Fin n) ℚ :=
  let Y : Matrix (Fin n) (Fin n) ℚ := fun i j => max (S i j) (S j i)
  let Y2 : Matrix (Fin n) (Fin n) ℚ := fun i j => ∑ k, Y i k * Y j k
  fun i j => Y2 i j / Finset.univ.sup' Finset.univ_nonempty (fun k => Y2 k j)

/-- C5: the similarity enhancer is exactly the three-step composition of the
spec, with the normalization divisor the column-wise maximum over axis 0. -/
theorem c5_enhancer_composition (n : ℕ) [NeZero n] (S : Matrix (Fin n) (Fin n) ℚ) :
    sim_enhancement S = enhanceSpec S ∧
    sim_enhancement S = row_max_norm (diffusion (sym S)) := by
  refine ⟨?_, rfl⟩
  have hD : ∀ a b : Fin n, diffusion (sym S) a b =
      ∑ k, max (S a k) (S k a) * max (S b k) (S k b) := by
    intro a b
    unfold diffusion sym
    rw [Matrix.mul_apply]
    refine Finset.sum_congr rfl fun k _ => ?_
    rw [Matrix.transpose_apply]
    rfl
  funext i j
  show diffusion (sym S) i j / colMax (diffusion (sym S)) j = enhanceSpec S i j
  unfold enhanceSpec colMax
  simp only [hD]

/-- Witness for C5: the composition identity at a concrete 2 by 2 matrix. -/
theorem c5_enhancer_composition_witness :
    sim_enhancement (fun _ _ => 1 : Matrix (Fin 2) (Fin 2) ℚ) =
      enhanceSpec (fun _ _ => 1) ∧
    sim_enhancement (fun _ _ => 1 : Matrix (Fin 2) (Fin 2) ℚ) =
      row_max_norm (diffusion (sym (fun _ _ => 1))) :=
  c5_enhancer_composition 2 (fun _ _ => 1)

/-- C6: every entry of the enhanced matrix is non-negative whenever every
entry of the input similarity matrix is non-negative. -/
theorem c6_enhancer_nonneg (n : ℕ) [NeZero n] (S : Matrix (Fin n) (Fin n) ℚ)
    (h : ∀ i j, 0 ≤ S i j) : ∀ i j, 0 ≤ sim_enhancement S i j := by
  intro i j
  have hD : ∀ a b : Fin n, 0 ≤ diffusion (sym S) a b := by
    intro a b
    unfold diffusion
    rw [Matrix.mul_apply]
    refine Finset.sum_nonneg fun k _ => mul_nonneg ?_ ?_
    · exact le_trans (h a k) (le_max_left _ _)
    · rw [Matrix.transpose_apply]
      exact le_trans (h b k) (le_max_left _ _)
  have hcol : 0 ≤ colMax (diffusion (sym S)) j := by
    unfold colMax
    exact le_trans (hD j j)
      (Finset.le_sup' (fun i => diffusion (sym S) i j) (Finset.mem_univ j))
  exact div_nonneg (hD i j) hcol

/-- Witness for C6: non-negativity of one output entry at a concrete
non-negative 2 by 2 matrix. -/
theorem c6_enhancer_nonneg_witness :
    0 ≤ sim_enhancement (fun _ _ => 1 : Matrix (Fin 2) (Fin 2) ℚ) 0 1 :=
  c6_enhancer_nonneg 2 (fun _ _ => 1) (fun _ _ => by norm_num) 0 1

end Enhancer

section Spectral

/-- Modelled from the spec: scikit-learn KMeans `fit_predict` is external to
this repository; per the spec it must fail cleanly when invoked with
`n_clusters = 0` (reported upward, not silently producing a trivial
clustering), and for a positive cluster count it returns a label assignment,
abstracted here as the parameter `assign`. -/
def kmeans_fit_predict (assign : ℕ → List (List ℚ) → List ℕ)
    (n_clusters : ℕ) (P : List (List ℚ)) : Except String (List ℕ) :=
  if n_clusters = 0 then
    Except.error "KMeans: n_clusters must be at least 1"
  else
    Except.ok (assign n_clusters P)

/-- The eigenvector selection of `spectral_clustering` (cluster.py lines
66-67): `kmask = np.real(eigvals) < beta` and `P = np.real(eigvecs).T[kmask].T`.
`eigvals` holds the real parts of the eigenvalues and `eigvecsT` the rows of
`np.real(eigvecs).T` (one eigenvector per row); the eigendecomposition
itself is external (floating-point LAPACK) and is abstracted as an input.
The result lists the selected eigenvector columns of `P`, so its length is
`P.shape[1]`. -/
def spectral_select (eigvals : List ℚ) (eigvecsT : List (List ℚ)) (beta : ℚ) :
    List (List ℚ) :=
  ((eigvals.zip eigvecsT).filter (fun p => decide (p.1 < beta))).map Prod.snd

/-- The tail of `spectral_clustering` (cluster.py lines 61-69) after the
eigendecomposition: build the projection from the eigenvectors passing the
threshold and invoke K-means with `n_clusters = P.shape[1]`. -/
def spectral_cluster_tail (assign : ℕ → List (List ℚ) → List ℕ)
    (eigvals : List ℚ) (eigvecsT : List (List ℚ)) (beta : ℚ) :
    Except String (List ℕ) :=
  let P := spectral_select eigvals eigvecsT beta
  kmeans_fit_predict assign P.length P

/-- C7: when no eigenvalue has real part strictly below `beta`, the spectral
estimator selects zero eigenvector columns, K-means is invoked with
`n_clusters = 0`, and the call fails with an error propagated upward instead
of any label assignment. -/
theorem c7_zero_clusters_error (assign : ℕ → List (List ℚ) → List ℕ)
    (eigvals : List ℚ) (eigvecsT : List (List ℚ)) (beta : ℚ)
    (h : ∀ v ∈ eigvals, ¬ v < beta) :
    (spectral_select eigvals eigvecsT beta).length = 0 ∧
    spectral_cluster_tail assign eigvals eigvecsT beta =
      Except.error "KMeans: n_clusters must be at least 1" := by
  have hsel : spectral_select eigvals eigvecsT beta = [] := by
    unfold spectral_select
    rw [List.filter_eq_nil_iff.mpr, List.map_nil]
    intro p hp
    have hmem := (List.of_mem_zip hp).1
    simp only [decide_eq_true_eq]
    exact h p.1 hmem
  refine ⟨by rw [hsel]; rfl, ?_⟩
  unfold spectral_cluster_tail
  rw [hsel]
  rfl

/-- Witness for C7: the zero-cluster failure at a concrete eigendecomposition
where the sole eigenvalue 1 does not pass the threshold 0. -/
theorem c7_zero_clusters_error_witness :
    (spectral_select [1] [[1]] 0).length = 0 ∧
    spectral_cluster_tail (fun _ _ => []) [1] [[1]] 0 =
      Except.error "KMeans: n_clusters must be at least 1" :=
  c7_zero_clusters_error (fun _ _ => []) [1] [[1]] 0
    (by
      intro v hv
      rw [List.mem_singleton] at hv
      subst hv
      norm_num)

end Spectral

section FrameEffects

/-- A store of numpy arrays; a reference is an index into the list, and a
fresh allocation appends at the end. -/
abbrev Store (n : ℕ) : Type := List (Matrix (Fin n) (Fin n) ℚ)

/-- Read the array behind a reference. -/
def readArr {n : ℕ} (st : Store n) (r : ℕ) : Matrix (Fin n) (Fin n) ℚ :=
  List.getD st r 0

/-- Allocate a fresh array (numpy operations such as `np.maximum`, `np.dot`
and broadcast division all return new arrays). -/
def allocArr {n : ℕ} (st : Store n) (m : Matrix (Fin n) (Fin n) ℚ) : Store n × ℕ :=
  (st ++ [m], st.length)

/-- The in-place `np.fill_diagonal(A, 0.)` applied to the array behind
reference `r`. -/
def fill_diagonal_zero {n : ℕ} (st : Store n) (r : ℕ) : Store n :=
  st.set r (fun i j => if i = j then 0 else readArr st r i j)

/-- The store effects of `spectral_clustering` (cluster.py lines 61-69): the
local name `S` is rebound to the freshly allocated enhanced matrix
`sim_enhancement(S)`, and `np.fill_diagonal` mutates only that fresh array;
the Laplacian, eigendecomposition and K-means then only read it.  The result
is the final store together with the reference those read-only steps use. -/
def spectral_clustering_store {n : ℕ} [NeZero n] (st : Store n) (sref : ℕ) :
    Store n × ℕ :=
  let S := readArr st sref
  let ar := allocArr st (sim_enhancement S)
  let st2 := fill_diagonal_zero ar.1 ar.2
  (st2, ar.2)

/-- The store effects of `agg_clustering` (cluster.py lines 71-73): the
agglomerative estimator only reads the matrix behind `sref` and allocates
nothing, so the store is unchanged. -/
def agg_clustering_store {n : ℕ} (st : Store n) (sref : ℕ) : Store n × ℕ :=
  (st, sref)

/-- C8: neither estimator changes the matrix of the caller: the enhancer output is
a fresh allocation and the diagonal zeroing inside the spectral estimator is
applied only to that fresh array, never to the array behind `sref`; the
agglomerative estimator does not touch the store at all. -/
theorem c8_estimators_preserve_input (n : ℕ) [NeZero n] (st : Store n) (sref : ℕ)
    (h : sref < st.length) :
    readArr (spectral_clustering_store st sref).1 sref = readArr st sref ∧
    readArr (agg_clustering_store st sref).1 sref = readArr st sref := by
  refine ⟨?_, rfl⟩
  unfold spectral_clustering_store fill_diagonal_zero allocArr readArr
  simp only
  rw [List.getD_eq_getElem?_getD, List.getD_eq_getElem?_getD]
  rw [List.getElem?_set_ne (Nat.ne_of_gt h)]
  rw [List.getElem?_append_left h]

/-- Witness for C8: purity of both estimators at a concrete one-element
store holding the all-ones 2 by 2 matrix. -/
theorem c8_estimators_preserve_input_witness :
    readArr (spectral_clustering_store [(fun _ _ => 1 : Matrix (Fin 2) (Fin 2) ℚ)] 0).1 0 =
      readArr [(fun _ _ => 1 : Matrix (Fin 2) (Fin 2) ℚ)] 0 ∧
    readArr (agg_clustering_store [(fun _ _ => 1 : Matrix (Fin 2) (Fin 2) ℚ)] 0).1 0 =
      readArr [(fun _ _ => 1 : Matrix (Fin 2) (Fin 2) ℚ)] 0 :=
  c8_estimators_preserve_input 2 [(fun _ _ => 1)] 0 (by norm_num)

end FrameEffects

section Serializer

/-- Round a rational to the nearest integer with ties to even, the rounding
the Python fixed-point format with 3 decimals applies to the scaled value. -/
def roundHalfEven (x : ℚ) : ℤ :=
  if x - ⌊x⌋ < 1 / 2 then ⌊x⌋
  else if 1 / 2 < x - ⌊x⌋ then ⌊x⌋ + 1
  else if ⌊x⌋ % 2 = 0 then ⌊x⌋ else ⌊x⌋ + 1

/-- Three decimal digits, zero-padded on the left. -/
def padThree (m : ℕ) : String :=
  if m < 10 then "00" ++ Nat.repr m
  else if m < 100 then "0" ++ Nat.repr m
  else Nat.repr m

/-- Render a non-negative count of thousandths as a fixed-point numeral with
three digits after the point. -/
def thousandthsRepr (m : ℕ) : String :=
  Nat.repr (m / 1000) ++ "." ++ padThree (m % 1000)

/-- The Python fixed-point format with 3 decimals: rendering of `q`, the float
value modelled exactly by a rational. -/
def formatFixed3 (q : ℚ) : String :=
  if q < 0 then "-" ++ thousandthsRepr (roundHalfEven (-q * 1000)).toNat
  else thousandthsRepr (roundHalfEven (q * 1000)).toNat

/-- The RTTM serializer `rttm_lines_from_entries` (cluster.py lines 98-107):
one formatted line per entry, appended in order. -/
def rttm_lines_from_entries (entries : List Entry) (rec_id : String) : List String :=
  entries.foldl
    (fun lines entry =>
      let start := entry.s
      let e := entry.e
      let label := entry.id
      let offset := e - start
      lines ++ ["SPEAKER " ++ rec_id ++ " 0 " ++ formatFixed3 start ++ " " ++
        formatFixed3 offset ++ " <NA> <NA> " ++ Nat.repr label ++ " <NA> <NA>\n"])
    []

theorem foldl_concat_eq_map {α β : Type} (f : α → β) (l : List α) :
    ∀ acc : List β, l.foldl (fun ls x => ls ++ [f x]) acc = acc ++ l.map f := by
  induction l with
  | nil => intro acc; simp
  | cons a t ih =>
    intro acc
    rw [List.foldl_cons, ih, List.map_cons]
    simp

/-- C1: every entry renders as exactly one line
`SPEAKER <rec_id> 0 <start:.3f> <duration:.3f> <NA> <NA> <label> <NA> <NA>`
ending in a newline, with `duration = end - start`, single-space separation,
literal `<NA>` placeholders and 3-decimal fixed-point start/duration; for
the interval `(s, e, id) = (1, 5/2, 3)` and recording `rec1` the rendered
line is exactly `SPEAKER rec1 0 1.000 1.500 <NA> <NA> 3 <NA> <NA>` plus a
newline. -/
theorem c1_rttm_line_format :
    (∀ (entries : List Entry) (rec_id : String),
        rttm_lines_from_entries entries rec_id =
          entries.map (fun entry =>
            "SPEAKER " ++ rec_id ++ " 0 " ++ formatFixed3 entry.s ++ " " ++
              formatFixed3 (entry.e - entry.s) ++ " <NA> <NA> " ++
              Nat.repr entry.id ++ " <NA> <NA>\n")) ∧
    rttm_lines_from_entries [⟨1, 5 / 2, 3⟩] "rec1" =
      ["SPEAKER rec1 0 1.000 1.500 <NA> <NA> 3 <NA> <NA>\n"] := by
  have hmap : ∀ (entries : List Entry) (rec_id : String),
      rttm_lines_from_entries entries rec_id =
        entries.map (fun entry =>
          "SPEAKER " ++ rec_id ++ " 0 " ++ formatFixed3 entry.s ++ " " ++
            formatFixed3 (entry.e - entry.s) ++ " <NA> <NA> " ++
            Nat.repr entry.id ++ " <NA> <NA>\n") := by
    intro entries rec_id
    unfold rttm_lines_from_entries
    simpa using foldl_concat_eq_map _ entries []
  refine ⟨hmap, ?_⟩
  rw [hmap]
  have h1 : formatFixed3 ((⟨1, 5 / 2, 3⟩ : Entry).s) = "1.000" := by
    show formatFixed3 (1 : ℚ) = "1.000"
    unfold formatFixed3 roundHalfEven
    norm_num
    rfl
  have h2 : formatFixed3 ((⟨1, 5 / 2, 3⟩ : Entry).e - (⟨1, 5 / 2, 3⟩ : Entry).s) =
      "1.500" := by
    show formatFixed3 ((5 : ℚ) / 2 - 1) = "1.500"
    unfold formatFixed3 roundHalfEven
    norm_num
    rfl
  rw [List.map_cons, List.map_nil, h1, h2]
  rfl

end Serializer

section Aggregator

/-- Python `str.strip()` on the characters of a line: whitespace removed
from both ends. -/
def pyStrip (l : List Char) : List Char :=
  ((l.dropWhile Char.isWhitespace).reverse.dropWhile Char.isWhitespace).reverse

/-- Python str.split on a single space: split at every space character, keeping
empty fields. -/
def pySplitSpace : List Char → List (List Char)
  | [] => [[]]
  | c :: rest =>
    let r := pySplitSpace rest
    if c = ' ' then [] :: r
    else (c :: r.headI) :: r.tail

/-- The split row of a raw line: strip it, then split on single spaces
(cluster.py line 146). -/
def lineRow (line : String) : List (List Char) :=
  pySplitSpace (pyStrip line.data)

/-- The grouping key of a line, `columns[column]` at that line: field
`column` of its split row. -/
def lineKey (column : ℕ) (line : String) : List Char :=
  (lineRow line).getD column []

/-- How many tuples `columns = list(zip(*data))` yields: the minimum row
length, and zero when there are no rows. -/
def numCols (data : List (List (List Char))) : ℕ :=
  match data with
  | [] => 0
  | r :: rs => (rs.map List.length).foldl min r.length

/-- The corpus aggregator `sort_and_cat` (cluster.py lines 140-156).  Files
are lists of raw lines; all lines are read in file order then line order,
each stripped and split on single spaces.  `columns[column]` raises
`IndexError` (modelled as `none`) unless `column < numCols data`; otherwise
the distinct key values are sorted ascending (`sorted(set(...))`, code-point
order) and the raw lines are emitted grouped by key in that order, the
boolean-mask selection `all_rows[rindexes]` keeping original relative order
inside each group. -/
def sort_and_cat (rttms : List (List String)) (column : ℕ) : Option (List String) :=
  let all_rows := rttms.flatten
  let data := all_rows.map lineRow
  if column < numCols data then
    let rec_ids := ((all_rows.map (lineKey column)).dedup).insertionSort (· ≤ ·)
    some (rec_ids.flatMap (fun rid =>
      all_rows.filter (fun line => decide (lineKey column line = rid))))
  else
    none

theorem filter_group (column : ℕ) (rows : List String) (r v : List Char) :
    (rows.filter (fun l => decide (lineKey column l = r))).filter
        (fun l => decide (lineKey column l = v)) =
      if r = v then rows.filter (fun l => decide (lineKey column l = v)) else [] := by
  rw [List.filter_filter]
  by_cases hrv : r = v
  · subst hrv
    rw [if_pos rfl]
    exact List.filter_congr fun a _ => Bool.and_self _
  · rw [if_neg hrv]
    refine List.filter_eq_nil_iff.mpr fun a _ => ?_
    simp only [Bool.and_eq_true, decide_eq_true_eq, not_and]
    intro hv hr
    exact hrv (hr ▸ hv ▸ rfl)

theorem filter_flatMap_groups (column : ℕ) (rows : List String)
    (ids : List (List Char)) (hnd : ids.Nodup) (v : List Char) :
    (ids.flatMap (fun rid =>
        rows.filter (fun l => decide (lineKey column l = rid)))).filter
        (fun l => decide (lineKey column l = v)) =
      if v ∈ ids then rows.filter (fun l => decide (lineKey column l = v)) else [] := by
  induction ids with
  | nil => simp
  | cons r t ih =>
    rw [List.flatMap_cons, List.filter_append, filter_group,
      ih (List.Nodup.of_cons hnd)]
    by_cases hrv : r = v
    · have hvt : v ∉ t := hrv ▸ (List.nodup_cons.mp hnd).1
      rw [if_pos hrv, if_neg hvt, if_pos (List.mem_cons.mpr (Or.inl hrv.symm)),
        List.append_nil]
    · rw [if_neg hrv]
      by_cases hvt : v ∈ t
      · rw [if_pos hvt, if_pos (List.mem_cons_of_mem r hvt), List.nil_append]
      · rw [if_neg hvt, if_neg (by
          intro hmem
          rcases List.mem_cons.mp hmem with hh | ht
          · exact hrv hh.symm
          · exact hvt ht), List.nil_append]

/-- C9 counterexample: the aggregator does not return the grouped lines for
every input.  With no input files, or when a line has at most `key_column`
fields, `columns[key_column]` raises `IndexError` instead of returning the
(possibly empty) grouped line list. -/
theorem c9_sort_and_cat_counterexample :
    sort_and_cat [] 1 = none ∧
    sort_and_cat [["a b\n"]] 5 = none ∧
    sort_and_cat [["a b\n"]] 5 ≠ some ["a b\n"] := by
  refine ⟨by decide, by decide, by decide⟩

/-- C9 amended: whenever every line has more than `key_column`
single-space-delimited fields (and at least one line exists), so that the
key column is in range, the aggregator returns exactly the multiset of
input lines (file order, then line order) rearranged into groups by the key
field, groups in ascending code-point order of the distinct key values, and
each group keeping the original relative order of its lines. -/
theorem c9_sort_and_cat_groups (rttms : List (List String)) (column : ℕ)
    (h : column < numCols ((rttms.flatten).map lineRow)) :
    ∃ out, sort_and_cat rttms column = some out ∧
      out.Perm rttms.flatten ∧
      out.Pairwise (fun a b => lineKey column a ≤ lineKey column b) ∧
      ∀ v : List Char,
        out.filter (fun line => decide (lineKey column line = v)) =
          (rttms.flatten).filter (fun line => decide (lineKey column line = v)) := by
  set rows := rttms.flatten with hrows
  set rec_ids := ((rows.map (lineKey column)).dedup).insertionSort (· ≤ ·) with hrec
  set out := rec_ids.flatMap (fun rid =>
    rows.filter (fun line => decide (lineKey column line = rid))) with hout
  have hsc : sort_and_cat rttms column = some out := by
    unfold sort_and_cat
    rw [if_pos h]
  have hnd : rec_ids.Nodup :=
    ((List.perm_insertionSort _ _).nodup_iff).mpr (List.nodup_dedup _)
  have hmem : ∀ v, v ∈ rec_ids ↔ v ∈ rows.map (lineKey column) := fun v =>
    Iff.trans (List.perm_insertionSort _ _).mem_iff (List.mem_dedup)
  have hfilter : ∀ v, out.filter (fun line => decide (lineKey column line = v)) =
      rows.filter (fun line => decide (lineKey column line = v)) := by
    intro v
    rw [hout, filter_flatMap_groups column rows rec_ids hnd v]
    by_cases hv : v ∈ rec_ids
    · rw [if_pos hv]
    · rw [if_neg hv]
      refine (List.filter_eq_nil_iff.mpr fun a ha => ?_).symm
      simp only [decide_eq_true_eq]
      intro heq
      exact hv ((hmem v).mpr (heq ▸ List.mem_map_of_mem (lineKey column) ha))
  have hperm : out.Perm rows := by
    rw [List.perm_iff_count]
    intro a
    have h1 : (out.filter
        (fun line => decide (lineKey column line = lineKey column a))).count a =
        out.count a := List.count_filter (by simp)
    have h2 : (rows.filter
        (fun line => decide (lineKey column line = lineKey column a))).count a =
        rows.count a := List.count_filter (by simp)
    rw [← h1, hfilter (lineKey column a), h2]
  have hsorted : out.Pairwise (fun a b => lineKey column a ≤ lineKey column b) := by
    have hs : rec_ids.Pairwise (· ≤ ·) := List.sorted_insertionSort _ _
    rw [hout,
      show rec_ids.flatMap (fun rid =>
          rows.filter (fun line => decide (lineKey column line = rid))) =
        (rec_ids.map (fun rid =>
          rows.filter (fun line => decide (lineKey column line = rid)))).flatten
        from rfl]
    refine List.pairwise_flatten.mpr ⟨?_, ?_⟩
    · intro l' hl'
      obtain ⟨rid, -, rfl⟩ := List.mem_map.mp hl'
      refine List.pairwise_of_forall_mem_list fun a ha b hb => ?_
      have ha' := (List.mem_filter.mp ha).2
      have hb' := (List.mem_filter.mp hb).2
      simp only [decide_eq_true_eq] at ha' hb'
      rw [ha', hb']
    · rw [List.pairwise_map]
      refine hs.imp ?_
      intro r1 r2 hle a ha b hb
      have ha' := (List.mem_filter.mp ha).2
      have hb' := (List.mem_filter.mp hb).2
      simp only [decide_eq_true_eq] at ha' hb'
      rw [ha', hb']
      exact hle
  exact ⟨out, hsc, hperm, hsorted, hfilter⟩

/-- Witness for C9: the grouped-and-sorted output at two concrete one-line
files whose recording ids arrive out of order. -/
theorem c9_sort_and_cat_groups_witness :
    ∃ out, sort_and_cat [["b x\n"], ["a y\n"]] 0 = some out ∧
      out.Perm ([["b x\n"], ["a y\n"]] : List (List String)).flatten ∧
      out.Pairwise (fun a b => lineKey 0 a ≤ lineKey 0 b) ∧
      ∀ v : List Char,
        out.filter (fun line => decide (lineKey 0 line = v)) =
          (([["b x\n"], ["a y\n"]] : List (List String)).flatten).filter
            (fun line => decide (lineKey 0 line = v)) :=
  c9_sort_and_cat_groups [["b x\n"], ["a y\n"]] 0 (by decide)

end Aggregator
